import Mathlib

/-! # Verification of the tutorAgent chunker and quiz engine

Shallow embedding of `tutor_agent/embeddings.py` (`split_into_chunks`) and
`tutor_agent/quiz.py` (`QuizSession`) over `List Char` strings, together with
proofs of the specification claims about them.  Python string operations are
modelled on their ASCII behaviour, which is the behaviour exercised by the
program's inputs: `str.strip`/`str.split` whitespace and the regex class
`\s` are the six ASCII whitespace characters, `str.lower` lowers `A`-`Z`.
-/

set_option maxRecDepth 8000

namespace Tutor

/-- Whitespace recognised by Python `str.strip`, `str.split()` and `\s`
(ASCII fragment): space, tab, newline, carriage return, vertical tab,
form feed. -/
def isPySpace (c : Char) : Bool :=
  c = ' ' || c = '\t' || c = '\n' || c = '\r' || c.toNat = 11 || c.toNat = 12

/-- Sentence-ending punctuation of the regex `(?<=[.!?])\s+`. -/
def isPunct (c : Char) : Bool :=
  c = '.' || c = '!' || c = '?'

/-- The character class `[A-Za-z0-9]` of `re.sub(r"[^A-Za-z0-9]", "", w)`. -/
def isAlnumAscii (c : Char) : Bool :=
  (65 ≤ c.toNat && c.toNat ≤ 90) || (97 ≤ c.toNat && c.toNat ≤ 122) ||
    (48 ≤ c.toNat && c.toNat ≤ 57)

/-- Remove the longest suffix of whitespace-like characters. -/
def dropRightWhile (p : Char → Bool) (s : List Char) : List Char :=
  (s.reverse.dropWhile p).reverse

/-- Python `str.strip()`: drop leading and trailing whitespace. -/
def pyStrip (s : List Char) : List Char :=
  dropRightWhile isPySpace (s.dropWhile isPySpace)

theorem length_dropWhile_le (p : Char → Bool) (l : List Char) :
    (l.dropWhile p).length ≤ l.length := by
  induction l with
  | nil => simp
  | cons c cs ih =>
    by_cases h : p c
    · simpa [List.dropWhile_cons_of_pos h] using Nat.le_succ_of_le ih
    · simp [List.dropWhile_cons_of_neg h]

/-- Head of the accumulator holds the most recently consumed character; the
regex lookbehind `(?<=[.!?])` consults it. -/
def headPunct : List Char → Bool
  | [] => false
  | p :: _ => isPunct p

/-- Worker for `re.split(r"(?<=[.!?])\s+", s)`: scan left to right, cutting at
each maximal whitespace run whose preceding character is `.`, `!` or `?`.
The accumulator keeps the current piece reversed; the flag records that the
scanner is inside the matched whitespace run (the delimiter), whose
remaining characters it consumes before starting the next piece. -/
def sentSplitGo : List Char → List Char → Bool → List (List Char)
  | [], acc, _ => [acc.reverse]
  | c :: rest, _, true =>
    if isPySpace c then sentSplitGo rest [] true
    else sentSplitGo rest [c] false
  | c :: rest, acc, false =>
    if isPySpace c && headPunct acc then
      acc.reverse :: sentSplitGo rest [] true
    else
      sentSplitGo rest (c :: acc) false

/-- `re.split(r"(?<=[.!?])\s+", s)`. -/
def sentSplit (s : List Char) : List (List Char) :=
  sentSplitGo s [] false

/-- Worker for `re.split(r"\n{2,}", s)`: cut at each maximal run of at least
two newline characters (the lookahead on `rest` keeps single newlines inside
the current piece; the flag consumes the rest of the matched run). -/
def paraSplitGo : List Char → List Char → Bool → List (List Char)
  | [], acc, _ => [acc.reverse]
  | c :: rest, _, true =>
    if c = '\n' then paraSplitGo rest [] true
    else paraSplitGo rest [c] false
  | c :: rest, acc, false =>
    if c = '\n' && rest.head?.isEqSome '\n' then
      acc.reverse :: paraSplitGo rest [] true
    else
      paraSplitGo rest (c :: acc) false

/-- `re.split(r"\n{2,}", s)`. -/
def paraSplit (s : List Char) : List (List Char) :=
  paraSplitGo s [] false

/-- `[p.strip() for p in re.split(r"\n{2,}", text) if p.strip()]`. -/
def splitParagraphs (text : List Char) : List (List Char) :=
  ((paraSplit text).map pyStrip).filter (fun p => !p.isEmpty)

/-- `f"{buf} {sent}".strip()`: join with a single space, then strip. -/
def joinSp (a b : List Char) : List Char :=
  pyStrip (a ++ ' ' :: b)

/-- One iteration of the sentence-packing loop of `split_into_chunks`
(state: emitted chunks so far and the running buffer). -/
def packStep (maxLen : Nat) (st : List (List Char) × List Char)
    (sent : List Char) : List (List Char) × List Char :=
  if sent.isEmpty then st
  else if st.2.length + sent.length + 1 ≤ maxLen then (st.1, joinSp st.2 sent)
  else if st.2.isEmpty then (st.1, sent)
  else (st.1 ++ [st.2], sent)

/-- The sentence-packing loop of `split_into_chunks`, including the trailing
flush of a non-empty buffer. -/
def packSentences (maxLen : Nat) (sents : List (List Char)) : List (List Char) :=
  let st := sents.foldl (packStep maxLen) ([], [])
  if st.2.isEmpty then st.1 else st.1 ++ [st.2]

/-- One iteration of the second ("merge tiny chunks") pass of
`split_into_chunks`. -/
def mergeStep (minLen maxLen : Nat) (st : List (List Char) × List Char)
    (chunk : List Char) : List (List Char) × List Char :=
  if st.2.length + chunk.length + 1 ≤ maxLen ∧
      (st.2.length < minLen ∨ chunk.length < minLen) then
    (st.1, joinSp st.2 chunk)
  else if st.2.isEmpty then (st.1 ++ [chunk], [])
  else (st.1 ++ [st.2, chunk], [])

/-- The merge pass of `split_into_chunks`, including the trailing flush. -/
def mergeChunks (minLen maxLen : Nat) (chunks : List (List Char)) :
    List (List Char) :=
  let st := chunks.foldl (mergeStep minLen maxLen) ([], [])
  if st.2.isEmpty then st.1 else st.1 ++ [st.2]

/-- The first pass of `split_into_chunks`: each paragraph is emitted whole
when it fits in `maxLen`, otherwise its sentences are greedily packed. -/
def preMergeChunks (text : List Char) (maxLen : Nat) : List (List Char) :=
  (splitParagraphs text).flatMap (fun para =>
    if para.length ≤ maxLen then [para]
    else packSentences maxLen (sentSplit para))

/-- `split_into_chunks(text, min_length, max_length)` from
`tutor_agent/embeddings.py`. -/
def split_into_chunks (text : List Char) (minLen maxLen : Nat) :
    List (List Char) :=
  mergeChunks minLen maxLen (preMergeChunks text maxLen)

/-- Characters of a string that are not whitespace, in order. -/
def keepNonWS (s : List Char) : List Char :=
  s.filter (fun c => !isPySpace c)

/-- Worker for Python `str.split()` with no separator: split on whitespace
runs and discard empty pieces. -/
def pySplitWsGo : List Char → List Char → List (List Char)
  | [], acc => if acc.isEmpty then [] else [acc.reverse]
  | c :: rest, acc =>
    if isPySpace c then
      if acc.isEmpty then pySplitWsGo rest [] else acc.reverse :: pySplitWsGo rest []
    else
      pySplitWsGo rest (c :: acc)

/-- Python `str.split()` with no separator. -/
def pySplitWs (s : List Char) : List (List Char) :=
  pySplitWsGo s []

/-- Python `str.lower()` on ASCII letters. -/
def toLowerAscii (c : Char) : Char :=
  if 65 ≤ c.toNat ∧ c.toNat ≤ 90 then Char.ofNat (c.toNat + 32) else c

/-- Python `max(l, key=key)`: the first element of maximal key, found by
scanning with replacement only on a strictly greater key. -/
def pyMaxBy {α : Type} (key : α → Nat) (h : α) (t : List α) : α :=
  t.foldl (fun best x => if key best < key x then x else best) h

/-- The dataclass `Question` of `tutor_agent/quiz.py`. -/
structure Question where
  text : List Char
  answer : List Char
  difficulty : Nat
deriving DecidableEq

/-- `sentences = [s.strip() for s in re.split(...) if s.strip()]` in
`QuizSession._generate_question_from_chunk`. -/
def sentencesOf (chunk : List Char) : List (List Char) :=
  ((sentSplit chunk).map pyStrip).filter (fun s => !s.isEmpty)

/-- `re.sub(r"[^A-Za-z0-9]", "", w)`. -/
def stripNonAlnum (w : List Char) : List Char :=
  w.filter isAlnumAscii

/-- `words = [re.sub(r"[^A-Za-z0-9]", "", w) for w in sentence.split()]`
followed by `words = [w for w in words if w]`. -/
def wordsOf (sentence : List Char) : List (List Char) :=
  ((pySplitWs sentence).map stripNonAlnum).filter (fun w => !w.isEmpty)

/-- `f"What does the term '{keyword}' refer to in this context?"`. -/
def questionTemplate (kw : List Char) : List Char :=
  ("What does the term ").toList ++
    Char.ofNat 39 :: (kw ++ Char.ofNat 39 :: (" refer to in this context?").toList)

/-- `QuizSession._generate_question_from_chunk`: question text, answer text
and the whitespace word count of the whole chunk, or `none` when the chunk
yields no usable sentence or no alphanumeric token. -/
def genQuestion (chunk : List Char) : Option (List Char × List Char × Nat) :=
  match sentencesOf chunk with
  | [] => none
  | s :: ss =>
    let sentence := pyMaxBy List.length s ss
    match wordsOf sentence with
    | [] => none
    | w :: ws =>
      let keyword := pyMaxBy List.length w ws
      some (questionTemplate keyword, pyStrip sentence, (pySplitWs chunk).length)

/-- `QuizSession._difficulty_from_length`. -/
def difficultyFromLength (wordCount : Nat) : Nat :=
  if wordCount ≤ 40 then 0 else if wordCount ≤ 100 then 1 else 2

/-- `user.strip().lower()` in `QuizSession._check_answer`. -/
def normalizeAnswer (s : List Char) : List Char :=
  (pyStrip s).map toLowerAscii

/-- Inner loop body of `difflib.SequenceMatcher.find_longest_match`: handle
one matching position `j` of row `i`, extending the diagonal run recorded in
the previous row's `j2len` and updating the best block on a strictly longer
run.  The state is `(newj2len, besti, bestj, bestsize)`. -/
def flmProcessJ (j2len : Nat → Nat) (i : Nat)
    (st : (Nat → Nat) × Nat × Nat × Nat) (j : Nat) :
    (Nat → Nat) × Nat × Nat × Nat :=
  let k := if j = 0 then 1 else j2len (j - 1) + 1
  let nj := fun x => if x = j then k else st.1 x
  if st.2.2.2 < k then (nj, i + 1 - k, j + 1 - k, k)
  else (nj, st.2.1, st.2.2.1, st.2.2.2)

/-- Character at index `i`, defaulting like an out-of-range access never
taken by the algorithm. -/
def getC (s : List Char) (i : Nat) : Char :=
  s.getD i (Char.ofNat 0)

/-- Number of occurrences of `c` in `b` (the length of `b2j[c]` before the
popular-element purge). -/
def countChar (b : List Char) (c : Char) : Nat :=
  (b.filter (fun d => d == c)).length

/-- The default-`autojunk` heuristic of `SequenceMatcher.__chain_b`: when
`len(b) >= 200`, elements occurring more than `len(b) // 100 + 1` times in
`b` are popular and are deleted from `b2j`. -/
def isPopular (b : List Char) (c : Char) : Bool :=
  decide (200 ≤ b.length) && decide (b.length / 100 + 1 < countChar b c)

/-- `b2j.get(a[i], [])` restricted to `[blo, bhi)` in ascending order:
empty when the character was purged as popular. -/
def b2jIndices (b : List Char) (popular : Char → Bool) (blo bhi : Nat)
    (c : Char) : List Nat :=
  if popular c then []
  else ((List.range bhi).drop blo).filter (fun j => getC b j == c)

/-- One row `i` of `find_longest_match`: visit, in ascending order, the
indices of `b2j.get(a[i], [])` inside `[blo, bhi)`. -/
def flmRow (a b : List Char) (popular : Char → Bool) (blo bhi : Nat)
    (st : (Nat → Nat) × Nat × Nat × Nat) (i : Nat) :
    (Nat → Nat) × Nat × Nat × Nat :=
  let js := b2jIndices b popular blo bhi (getC a i)
  js.foldl (flmProcessJ st.1 i) ((fun _ => 0), st.2.1, st.2.2.1, st.2.2.2)

/-- The first post-loop of `find_longest_match`: extend the best block
leftwards over equal non-junk characters.  `SequenceMatcher(None, a, b)`
has an empty `bjunk` (`isjunk` is `None`; `autojunk` fills `bpopular`, not
`bjunk`), so the `not isbjunk(...)` guard is always true and the final
junk-extension loops never fire.  The fuel is called with at least `besti`,
which bounds the number of left steps. -/
def flmExtendLeft (a b : List Char) (alo blo : Nat) :
    Nat → Nat → Nat → Nat → Nat × Nat × Nat
  | 0, besti, bestj, bestsize => (besti, bestj, bestsize)
  | fuel + 1, besti, bestj, bestsize =>
    if alo < besti ∧ blo < bestj ∧ getC a (besti - 1) = getC b (bestj - 1)
    then flmExtendLeft a b alo blo fuel (besti - 1) (bestj - 1) (bestsize + 1)
    else (besti, bestj, bestsize)

/-- The second post-loop of `find_longest_match`: extend the best block
rightwards over equal non-junk characters (see `flmExtendLeft` for why the
junk guard is vacuous).  Called with fuel at least `ahi`, which bounds the
number of right steps. -/
def flmExtendRight (a b : List Char) (ahi bhi : Nat) :
    Nat → Nat → Nat → Nat → Nat × Nat × Nat
  | 0, besti, bestj, bestsize => (besti, bestj, bestsize)
  | fuel + 1, besti, bestj, bestsize =>
    if besti + bestsize < ahi ∧ bestj + bestsize < bhi ∧
        getC a (besti + bestsize) = getC b (bestj + bestsize)
    then flmExtendRight a b ahi bhi fuel besti bestj (bestsize + 1)
    else (besti, bestj, bestsize)

/-- `SequenceMatcher.find_longest_match(alo, ahi, blo, bhi)` for a matcher
built as `SequenceMatcher(None, a, b)`: the dynamic-programming sweep over
the popularity-purged `b2j`, then the two non-junk extension loops (the
junk-extension loops are no-ops because `bjunk` is empty). -/
def findLongestMatch (a b : List Char) (popular : Char → Bool)
    (alo ahi blo bhi : Nat) : Nat × Nat × Nat :=
  let st := ((List.range ahi).drop alo).foldl (flmRow a b popular blo bhi)
    ((fun _ => 0), alo, blo, 0)
  let l := flmExtendLeft a b alo blo st.2.1 st.2.1 st.2.2.1 st.2.2.2
  flmExtendRight a b ahi bhi ahi l.1 l.2.1 l.2.2

/-- Total size of the blocks of `SequenceMatcher.get_matching_blocks`
restricted to `a[alo:ahi]`, `b[blo:bhi]`: recursively take the longest match
and recurse on both sides.  `fuel` dominates the recursion depth; it is
always called with more fuel than the interval sizes can consume. -/
def matchBlocksSize (a b : List Char) (popular : Char → Bool) :
    Nat → Nat → Nat → Nat → Nat → Nat
  | 0, _, _, _, _ => 0
  | fuel + 1, alo, ahi, blo, bhi =>
    let m := findLongestMatch a b popular alo ahi blo bhi
    if m.2.2 = 0 then 0
    else
      matchBlocksSize a b popular fuel alo m.1 blo m.2.1 + m.2.2 +
        matchBlocksSize a b popular fuel (m.1 + m.2.2) ahi (m.2.1 + m.2.2)
          bhi

/-- The matched-character total `M` of
`SequenceMatcher(None, a, b).ratio()`, with the default `autojunk`
popularity purge computed from `b`. -/
def smTotalMatched (a b : List Char) : Nat :=
  matchBlocksSize a b (isPopular b) (a.length + b.length + 1)
    0 a.length 0 b.length

/-- `SequenceMatcher(None, a, b).ratio() = 2 * M / T` as an exact rational. -/
def similarityScore (a b : List Char) : ℚ :=
  2 * (smTotalMatched a b : ℚ) / ((a.length : ℚ) + (b.length : ℚ))

/-- `QuizSession._check_answer`: normalize both strings, reject empty input,
otherwise compare the SequenceMatcher ratio against 0.6.  The float test
`2*M/T >= 0.6` is the integer test `10*M ≥ 3*T` (division is exact enough at
these sizes for the rounded comparison to agree with the rational one). -/
def check_answer (user correct : List Char) : Bool :=
  let u := normalizeAnswer user
  let c := normalizeAnswer correct
  if u.isEmpty || c.isEmpty then false
  else decide (3 * (u.length + c.length) ≤ 10 * smTotalMatched u c)

/-- The mutable fields of `QuizSession`: the three difficulty buckets
`questions_by_level`, `current_level` and the two counters. -/
structure QuizState where
  b0 : List Question
  b1 : List Question
  b2 : List Question
  current_level : Nat
  correct_count : Nat
  incorrect_count : Nat

/-- `questions_by_level[lvl]`. -/
def bucket (s : QuizState) : Nat → List Question
  | 0 => s.b0
  | 1 => s.b1
  | _ => s.b2

/-- Write back one bucket. -/
def setBucket (s : QuizState) : Nat → List Question → QuizState
  | 0, qs => { s with b0 := qs }
  | 1, qs => { s with b1 := qs }
  | _, qs => { s with b2 := qs }

/-- `QuizSession.__init__` state after `_prepare_questions`: `current_level`
starts at 1 (medium) and the counters at 0.  The bucket contents are
parameters because `_prepare_questions` shuffles each bucket with
`random.shuffle`; the theorems quantify over all bucket contents and so over
every shuffle outcome. -/
def mkSession (qs0 qs1 qs2 : List Question) : QuizState :=
  { b0 := qs0, b1 := qs1, b2 := qs2,
    current_level := 1, correct_count := 0, incorrect_count := 0 }

/-- Level reselection in `QuizSession.ask`: `remaining_levels` in dict
insertion order 0,1,2, then `max(remaining_levels, key=...)`; `none` when
every bucket is empty (the loop breaks). -/
def pickLevel (s : QuizState) : Option Nat :=
  match ([0, 1, 2].filter (fun l => !(bucket s l).isEmpty)) with
  | [] => none
  | l :: ls => some (pyMaxBy (fun l => (bucket s l).length) l ls)

/-- `questions_by_level[current_level].pop()`: remove and return the last
element. -/
def popLast (qs : List Question) : Option (Question × List Question) :=
  match qs.getLast? with
  | none => none
  | some q => some (q, qs.dropLast)

/-- Counter and level update after grading one answer in
`QuizSession.ask`. -/
def updateAfterGrade (isCorrect : Bool) (s : QuizState) : QuizState :=
  if isCorrect then
    { s with correct_count := s.correct_count + 1,
             current_level :=
               if s.current_level < 2 then s.current_level + 1
               else s.current_level }
  else
    { s with incorrect_count := s.incorrect_count + 1,
             current_level :=
               if 0 < s.current_level then s.current_level - 1
               else s.current_level }

/-- Console output of `QuizSession.ask`, abstracted per printed message. -/
inductive OutLine where
  | questionHeader : Nat → Nat → Nat → OutLine
  | questionText : List Char → OutLine
  | correctMsg : OutLine
  | incorrectMsg : List Char → OutLine
  | noMore : OutLine

/-- The loop of `QuizSession.ask`: `r` counts the remaining iterations of
`for i in range(num_questions)` (so the current index is `num - r`), and
`answers` supplies the value of each `input()` call. -/
def askGo (answers : Nat → List Char) (quiet : Bool) (num : Nat) :
    Nat → QuizState → List OutLine → QuizState × List OutLine
  | 0, s, out => (s, out)
  | r + 1, s, out =>
    match (if (bucket s s.current_level).isEmpty then pickLevel s
           else some s.current_level) with
    | none => (s, out ++ if quiet then [] else [OutLine.noMore])
    | some lvl =>
      match popLast (bucket s lvl) with
      | none => (s, out)
      | some (q, rest) =>
        let s2 := setBucket { s with current_level := lvl } lvl rest
        let i := num - (r + 1)
        let out2 := out ++ (if quiet then [] else
          [OutLine.questionHeader (i + 1) num lvl, OutLine.questionText q.text])
        let ok := check_answer (answers i) q.answer
        let out3 := out2 ++ (if quiet then [] else
          if ok then [OutLine.correctMsg] else [OutLine.incorrectMsg q.answer])
        askGo answers quiet num r (updateAfterGrade ok s2) out3

/-- Non-whitespace content of a chunking loop state: the emitted chunks
followed by the running buffer. -/
def wsContent (st : List (List Char) × List Char) : List Char :=
  keepNonWS st.1.flatten ++ keepNonWS st.2

/-- A chunk as emitted by `split_into_chunks`: non-empty and equal to its
own stripped form (no leading or trailing whitespace). -/
def CleanChunk (c : List Char) : Prop :=
  c ≠ [] ∧ pyStrip c = c

/-- The summary block printed by `QuizSession._print_summary`: total
answered, the two counters, and the accuracy figure, which is computed only
when at least one question was answered. -/
structure Summary where
  total_answered : Nat
  correct : Nat
  incorrect : Nat
  accuracy : Option ℚ

/-- `QuizSession._print_summary`. -/
def printSummary (s : QuizState) : Summary :=
  let total := s.correct_count + s.incorrect_count
  { total_answered := total,
    correct := s.correct_count,
    incorrect := s.incorrect_count,
    accuracy :=
      if total = 0 then none
      else some (100 * (s.correct_count : ℚ) / (total : ℚ)) }

/-- `QuizSession.ask(num_questions, quiet)` end to end: run the loop from
state `s`, then print the summary unless quiet. -/
def ask (s : QuizState) (answers : Nat → List Char) (num : Nat)
    (quiet : Bool) : QuizState × List OutLine × Option Summary :=
  let r := askGo answers quiet num num s []
  (r.1, r.2, if quiet then none else some (printSummary r.1))

/-! ## Lemmas about Python `max(l, key=...)` -/

theorem pyMaxBy_cons {α : Type} (key : α → Nat) (h x : α) (xs : List α) :
    pyMaxBy key h (x :: xs) =
      pyMaxBy key (if key h < key x then x else h) xs := rfl

theorem pyMaxBy_mem {α : Type} (key : α → Nat) (h : α) (t : List α) :
    pyMaxBy key h t ∈ h :: t := by
  induction t generalizing h with
  | nil => simp [pyMaxBy]
  | cons x xs ih =>
    rw [pyMaxBy_cons]
    by_cases hc : key h < key x
    · rw [if_pos hc]
      rcases List.mem_cons.mp (ih x) with h1 | h1
      · simp [h1]
      · simp [List.mem_cons, h1]
    · rw [if_neg hc]
      rcases List.mem_cons.mp (ih h) with h1 | h1
      · simp [h1]
      · simp [List.mem_cons, h1]

theorem pyMaxBy_le {α : Type} (key : α → Nat) (h : α) (t : List α) :
    ∀ x ∈ h :: t, key x ≤ key (pyMaxBy key h t) := by
  induction t generalizing h with
  | nil =>
    intro x hx
    rcases List.mem_cons.mp hx with rfl | hx
    · simp [pyMaxBy]
    · simp at hx
  | cons y ys ih =>
    intro x hx
    rw [pyMaxBy_cons]
    by_cases hc : key h < key y
    · rw [if_pos hc]
      rcases List.mem_cons.mp hx with rfl | hx'
      · exact le_trans (le_of_lt hc) (ih y y (List.mem_cons_self y ys))
      · exact ih y x hx'
    · rw [if_neg hc]
      rcases List.mem_cons.mp hx with rfl | hx'
      · exact ih x x (List.mem_cons_self x ys)
      · rcases List.mem_cons.mp hx' with rfl | hx''
        · exact le_trans (Nat.le_of_not_lt hc) (ih h h (List.mem_cons_self h ys))
        · exact ih h x (List.mem_cons.mpr (Or.inr hx''))

theorem pyMaxBy_first {α : Type} (key : α → Nat) (h : α) (t : List α) :
    ∃ l1 l2, h :: t = l1 ++ pyMaxBy key h t :: l2 ∧
      ∀ x ∈ l1, key x < key (pyMaxBy key h t) := by
  induction t generalizing h with
  | nil => exact ⟨[], [], rfl, by simp⟩
  | cons y ys ih =>
    rw [pyMaxBy_cons]
    by_cases hc : key h < key y
    · rw [if_pos hc]
      obtain ⟨l1, l2, heq, hlt⟩ := ih y
      refine ⟨h :: l1, l2, by rw [List.cons_append, ← heq], ?_⟩
      intro x hx
      rcases List.mem_cons.mp hx with rfl | hx'
      · exact lt_of_lt_of_le hc (pyMaxBy_le key y ys y (List.mem_cons_self y ys))
      · exact hlt x hx'
    · rw [if_neg hc]
      obtain ⟨l1, l2, heq, hlt⟩ := ih h
      cases l1 with
      | nil =>
        simp only [List.nil_append] at heq
        injection heq with e1 e2
        exact ⟨[], y :: ys, by rw [List.nil_append, ← e1], by simp⟩
      | cons a l1' =>
        simp only [List.cons_append, List.cons.injEq] at heq
        obtain ⟨rfl, heq2⟩ := heq
        refine ⟨h :: y :: l1', l2, ?_, ?_⟩
        · simp only [List.cons_append]
          rw [← heq2]
        · intro x hx
          have hh : key h < key (pyMaxBy key h ys) :=
            hlt h (List.mem_cons_self h l1')
          rcases List.mem_cons.mp hx with rfl | hx'
          · exact hh
          · rcases List.mem_cons.mp hx' with rfl | hx''
            · exact lt_of_le_of_lt (Nat.le_of_not_lt hc) hh
            · exact hlt x (List.mem_cons.mpr (Or.inr hx''))

/-! ## Whitespace-content lemmas -/

theorem keepNonWS_append (a b : List Char) :
    keepNonWS (a ++ b) = keepNonWS a ++ keepNonWS b := by
  simp [keepNonWS]

theorem keepNonWS_cons_ws {c : Char} (h : isPySpace c = true) (s : List Char) :
    keepNonWS (c :: s) = keepNonWS s := by
  simp [keepNonWS, List.filter_cons, h]

theorem keepNonWS_dropWhile (q : Char → Bool)
    (hq : ∀ c, q c = true → isPySpace c = true) (s : List Char) :
    keepNonWS (s.dropWhile q) = keepNonWS s := by
  induction s with
  | nil => rfl
  | cons c cs ih =>
    by_cases h : q c = true
    · rw [List.dropWhile_cons_of_pos h, ih, keepNonWS_cons_ws (hq c h)]
    · rw [List.dropWhile_cons_of_neg (by simpa using h)]

theorem keepNonWS_reverse (s : List Char) :
    keepNonWS s.reverse = (keepNonWS s).reverse :=
  List.filter_reverse _ _

theorem keepNonWS_pyStrip (s : List Char) :
    keepNonWS (pyStrip s) = keepNonWS s := by
  unfold pyStrip dropRightWhile
  rw [keepNonWS_reverse, keepNonWS_dropWhile isPySpace (fun _ h => h),
    keepNonWS_reverse, List.reverse_reverse,
    keepNonWS_dropWhile isPySpace (fun _ h => h)]

theorem keepNonWS_joinSp (a b : List Char) :
    keepNonWS (joinSp a b) = keepNonWS a ++ keepNonWS b := by
  unfold joinSp
  rw [keepNonWS_pyStrip, keepNonWS_append, keepNonWS_cons_ws (by decide)]

theorem wsContent_foldl
    (step : List (List Char) × List Char → List Char → List (List Char) × List Char)
    (H : ∀ st c, wsContent (step st c) = wsContent st ++ keepNonWS c)
    (l : List (List Char)) (st : List (List Char) × List Char) :
    wsContent (l.foldl step st) = wsContent st ++ keepNonWS l.flatten := by
  induction l generalizing st with
  | nil => simp [keepNonWS]
  | cons c cs ih =>
    rw [List.foldl_cons, ih, H, List.flatten_cons, keepNonWS_append,
      List.append_assoc]

theorem keepNonWS_nil : keepNonWS [] = [] := rfl

theorem packStep_wsContent (maxLen : Nat)
    (st : List (List Char) × List Char) (sent : List Char) :
    wsContent (packStep maxLen st sent) = wsContent st ++ keepNonWS sent := by
  obtain ⟨chs, buf⟩ := st
  by_cases h1 : sent.isEmpty
  · have hs : sent = [] := List.isEmpty_iff.mp h1
    subst hs
    simp [packStep, wsContent, keepNonWS]
  · by_cases h2 : buf.length + sent.length + 1 ≤ maxLen
    · simp [packStep, h1, h2, wsContent, keepNonWS_joinSp, List.append_assoc]
    · by_cases h3 : buf.isEmpty
      · have hb : buf = [] := List.isEmpty_iff.mp h3
        subst hb
        simp only [List.length_nil, Nat.zero_add] at h2
        simp [packStep, h1, h2, wsContent, keepNonWS_nil]
      · simp [packStep, h1, h2, h3, wsContent, keepNonWS_append,
          List.append_assoc]

theorem mergeStep_wsContent (minLen maxLen : Nat)
    (st : List (List Char) × List Char) (chunk : List Char) :
    wsContent (mergeStep minLen maxLen st chunk) =
      wsContent st ++ keepNonWS chunk := by
  obtain ⟨chs, buf⟩ := st
  by_cases h1 : buf.length + chunk.length + 1 ≤ maxLen ∧
      (buf.length < minLen ∨ chunk.length < minLen)
  · simp [mergeStep, h1, wsContent, keepNonWS_joinSp, List.append_assoc]
  · by_cases h2 : buf.isEmpty
    · have hb : buf = [] := List.isEmpty_iff.mp h2
      subst hb
      simp only [List.length_nil, Nat.zero_add] at h1
      simp [mergeStep, h1, wsContent, keepNonWS_nil, keepNonWS_append,
        List.append_assoc]
    · simp [mergeStep, h1, h2, wsContent, keepNonWS_append,
        List.append_assoc, keepNonWS_nil]

theorem packSentences_keepNonWS (maxLen : Nat) (sents : List (List Char)) :
    keepNonWS (packSentences maxLen sents).flatten =
      keepNonWS sents.flatten := by
  have h := wsContent_foldl (packStep maxLen) (packStep_wsContent maxLen)
    sents ([], [])
  simp only [wsContent, List.flatten_nil, List.nil_append] at h
  simp only [packSentences]
  by_cases hb : (sents.foldl (packStep maxLen) ([], [])).2.isEmpty
  · have hb' := List.isEmpty_iff.mp hb
    rw [hb'] at h
    simp only [hb, if_true]
    simpa [keepNonWS_nil] using h
  · simp only [hb, Bool.false_eq_true, if_false]
    simp only [keepNonWS_nil, List.nil_append] at h
    rw [List.flatten_append, keepNonWS_append, List.flatten_cons,
      List.flatten_nil, List.append_nil, ← h]

theorem mergeChunks_keepNonWS (minLen maxLen : Nat)
    (chunks : List (List Char)) :
    keepNonWS (mergeChunks minLen maxLen chunks).flatten =
      keepNonWS chunks.flatten := by
  have h := wsContent_foldl (mergeStep minLen maxLen)
    (mergeStep_wsContent minLen maxLen) chunks ([], [])
  simp only [wsContent, List.flatten_nil, List.nil_append] at h
  simp only [mergeChunks]
  by_cases hb : (chunks.foldl (mergeStep minLen maxLen) ([], [])).2.isEmpty
  · have hb' := List.isEmpty_iff.mp hb
    rw [hb'] at h
    simp only [hb, if_true]
    simpa [keepNonWS_nil] using h
  · simp only [hb, Bool.false_eq_true, if_false]
    simp only [keepNonWS_nil, List.nil_append] at h
    rw [List.flatten_append, keepNonWS_append, List.flatten_cons,
      List.flatten_nil, List.append_nil, ← h]

theorem keepNonWS_cons_split (c : Char) (rest : List Char) :
    keepNonWS (c :: rest) = keepNonWS [c] ++ keepNonWS rest := by
  cases hcw : isPySpace c <;>
    simp [keepNonWS, List.filter_cons, hcw]

theorem paraSplitGo_flatten (s : List Char) :
    ∀ (acc : List Char) (inRun : Bool), (inRun = true → acc = []) →
      keepNonWS (paraSplitGo s acc inRun).flatten =
        keepNonWS acc.reverse ++ keepNonWS s := by
  induction s with
  | nil => intro acc inRun _; simp [paraSplitGo, keepNonWS_nil]
  | cons c rest ih =>
    intro acc inRun hri
    cases inRun with
    | true =>
      have hacc : acc = [] := hri rfl
      subst hacc
      by_cases hc : c = '\n'
      · rw [show paraSplitGo (c :: rest) [] true =
              paraSplitGo rest [] true by simp [paraSplitGo, hc]]
        rw [ih [] true (fun _ => rfl), hc,
          keepNonWS_cons_ws (show isPySpace '\n' = true by decide)]
      · rw [show paraSplitGo (c :: rest) [] true =
              paraSplitGo rest [c] false by simp [paraSplitGo, hc]]
        rw [ih [c] false (fun h => by cases h)]
        simp [keepNonWS_nil, keepNonWS_cons_split c rest]
    | false =>
      by_cases hc : (c = '\n' && rest.head?.isEqSome '\n') = true
      · have hc' : c = '\n' := of_decide_eq_true ((Bool.and_eq_true _ _).mp hc).1
        rw [show paraSplitGo (c :: rest) acc false =
              acc.reverse :: paraSplitGo rest [] true by
            simp [paraSplitGo, hc]]
        rw [List.flatten_cons, keepNonWS_append, ih [] true (fun _ => rfl),
          hc', keepNonWS_cons_ws (show isPySpace '\n' = true by decide)]
        simp [keepNonWS_nil]
      · rw [show paraSplitGo (c :: rest) acc false =
              paraSplitGo rest (c :: acc) false by simp [paraSplitGo, hc]]
        rw [ih (c :: acc) false (fun h => by cases h)]
        rw [List.reverse_cons, keepNonWS_append, keepNonWS_cons_split c rest,
          List.append_assoc]

theorem sentSplitGo_flatten (s : List Char) :
    ∀ (acc : List Char) (inRun : Bool), (inRun = true → acc = []) →
      keepNonWS (sentSplitGo s acc inRun).flatten =
        keepNonWS acc.reverse ++ keepNonWS s := by
  induction s with
  | nil => intro acc inRun _; simp [sentSplitGo, keepNonWS_nil]
  | cons c rest ih =>
    intro acc inRun hri
    cases inRun with
    | true =>
      have hacc : acc = [] := hri rfl
      subst hacc
      by_cases hc : isPySpace c = true
      · rw [show sentSplitGo (c :: rest) [] true =
              sentSplitGo rest [] true by simp [sentSplitGo, hc]]
        rw [ih [] true (fun _ => rfl), keepNonWS_cons_ws hc]
      · rw [show sentSplitGo (c :: rest) [] true =
              sentSplitGo rest [c] false by simp [sentSplitGo, hc]]
        rw [ih [c] false (fun h => by cases h)]
        simp [keepNonWS_nil, keepNonWS_cons_split c rest]
    | false =>
      by_cases hc : (isPySpace c && headPunct acc) = true
      · have hc' : isPySpace c = true := ((Bool.and_eq_true _ _).mp hc).1
        rw [show sentSplitGo (c :: rest) acc false =
              acc.reverse :: sentSplitGo rest [] true by
            simp [sentSplitGo, hc]]
        rw [List.flatten_cons, keepNonWS_append, ih [] true (fun _ => rfl),
          keepNonWS_cons_ws hc']
        simp [keepNonWS_nil]
      · rw [show sentSplitGo (c :: rest) acc false =
              sentSplitGo rest (c :: acc) false by simp [sentSplitGo, hc]]
        rw [ih (c :: acc) false (fun h => by cases h)]
        rw [List.reverse_cons, keepNonWS_append, keepNonWS_cons_split c rest,
          List.append_assoc]

theorem paraSplit_flatten (s : List Char) :
    keepNonWS (paraSplit s).flatten = keepNonWS s := by
  simpa [paraSplit, keepNonWS_nil] using
    paraSplitGo_flatten s [] false (fun h => by cases h)

theorem sentSplit_flatten (s : List Char) :
    keepNonWS (sentSplit s).flatten = keepNonWS s := by
  simpa [sentSplit, keepNonWS_nil] using
    sentSplitGo_flatten s [] false (fun h => by cases h)

theorem stripFilter_flatten (ps : List (List Char)) :
    keepNonWS (((ps.map pyStrip).filter (fun p => !p.isEmpty)).flatten) =
      keepNonWS ps.flatten := by
  induction ps with
  | nil => rfl
  | cons p ps ih =>
    by_cases h : (pyStrip p).isEmpty
    · have hp : pyStrip p = [] := List.isEmpty_iff.mp h
      have hkp : keepNonWS p = [] := by
        rw [← keepNonWS_pyStrip, hp, keepNonWS_nil]
      simp [h, List.flatten_cons, keepNonWS_append, hkp, ih]
    · simp [h, List.flatten_cons, keepNonWS_append, keepNonWS_pyStrip, ih]

theorem splitParagraphs_flatten (text : List Char) :
    keepNonWS (splitParagraphs text).flatten = keepNonWS text := by
  unfold splitParagraphs
  rw [stripFilter_flatten, paraSplit_flatten]

theorem preMergeChunks_flatten (text : List Char) (maxLen : Nat) :
    keepNonWS (preMergeChunks text maxLen).flatten = keepNonWS text := by
  unfold preMergeChunks
  have H : ∀ ps : List (List Char),
      keepNonWS ((ps.flatMap (fun para =>
        if para.length ≤ maxLen then [para]
        else packSentences maxLen (sentSplit para))).flatten) =
      keepNonWS ps.flatten := by
    intro ps
    induction ps with
    | nil => rfl
    | cons p ps ih =>
      rw [List.flatMap_cons, List.flatten_append, keepNonWS_append, ih,
        List.flatten_cons, keepNonWS_append]
      congr 1
      by_cases hp : p.length ≤ maxLen
      · simp [hp, keepNonWS_append, keepNonWS_nil]
      · rw [if_neg hp, packSentences_keepNonWS, sentSplit_flatten]
  rw [H, splitParagraphs_flatten]

/-! ## The merge pass: chunk count and flush behaviour (C1) -/

theorem mergeStep_measure (minLen maxLen : Nat)
    (st : List (List Char) × List Char) (c : List Char) :
    (mergeStep minLen maxLen st c).1.length +
        (if (mergeStep minLen maxLen st c).2.isEmpty then 0 else 1) ≤
      st.1.length + (if st.2.isEmpty then 0 else 1) + 1 := by
  obtain ⟨m, b⟩ := st
  by_cases h1 : b.length + c.length + 1 ≤ maxLen ∧
      (b.length < minLen ∨ c.length < minLen)
  · simp only [mergeStep, h1, if_true]
    by_cases hj : (joinSp b c).isEmpty <;> by_cases hb : b.isEmpty <;>
      (simp [hj, hb]; try omega)
  · by_cases hb : b.isEmpty
    · simp [mergeStep, h1, hb]
    · simp [mergeStep, h1, hb]

theorem mergeFold_measure (minLen maxLen : Nat) (chunks : List (List Char)) :
    ∀ (merged : List (List Char)) (buf : List Char),
      (chunks.foldl (mergeStep minLen maxLen) (merged, buf)).1.length +
        (if (chunks.foldl (mergeStep minLen maxLen) (merged, buf)).2.isEmpty
         then 0 else 1) ≤
      merged.length + (if buf.isEmpty then 0 else 1) + chunks.length := by
  induction chunks with
  | nil => intro merged buf; simp
  | cons c cs ih =>
    intro merged buf
    rw [List.foldl_cons]
    have hstep := mergeStep_measure minLen maxLen (merged, buf) c
    dsimp only at hstep
    have hih := ih (mergeStep minLen maxLen (merged, buf) c).1
      (mergeStep minLen maxLen (merged, buf) c).2
    rw [Prod.mk.eta] at hih
    calc _ ≤ _ := hih
      _ ≤ _ := by
        simp only [List.length_cons]
        omega

theorem mergeChunks_length_le (minLen maxLen : Nat)
    (chunks : List (List Char)) :
    (mergeChunks minLen maxLen chunks).length ≤ chunks.length := by
  have h := mergeFold_measure minLen maxLen chunks [] []
  simp only [mergeChunks, List.length_nil, List.isEmpty_nil, if_true,
    Nat.zero_add] at h ⊢
  by_cases hb : (chunks.foldl (mergeStep minLen maxLen) ([], [])).2.isEmpty
  · rw [if_pos hb]
    rw [if_pos hb] at h
    omega
  · rw [if_neg hb]
    rw [if_neg hb] at h
    simp only [List.length_append, List.length_cons, List.length_nil]
    omega

/-- C1 counterexample: with `min_length = 5`, `max_length = 10` the merge
pass leaves `"xxxx"` and `"yyyy"` adjacent although both are shorter than
`min_length` and joining them with a space stays within `max_length`: after
a failed merge the candidate chunk is emitted directly instead of becoming
the new buffer. -/
theorem merge_small_adjacent_counterexample :
    split_into_chunks "uuuuuu\n\nxxxx\n\nyyyy".toList 5 10 =
      ["uuuuuu".toList, "xxxx".toList, "yyyy".toList] ∧
    "xxxx".toList.length < 5 ∧ "yyyy".toList.length < 5 ∧
    "xxxx".toList.length + "yyyy".toList.length + 1 ≤ 10 := by
  decide

/-- C1 (amended): the merge pass never increases the chunk count beyond the
pre-merge count; but when a chunk cannot be merged into the running buffer,
the buffer (if non-empty) is flushed and the candidate chunk is emitted
directly as a finished chunk with the buffer reset to empty — the candidate
does not stay available to absorb later small chunks, so two adjacent output
chunks may both be shorter than `min_length` even when joining them with a
space would stay within `max_length`. -/
theorem merge_pass_count_and_flush (minLen maxLen : Nat)
    (chunks : List (List Char)) :
    (mergeChunks minLen maxLen chunks).length ≤ chunks.length ∧
    ∀ (merged : List (List Char)) (buf chunk : List Char),
      ¬(buf.length + chunk.length + 1 ≤ maxLen ∧
          (buf.length < minLen ∨ chunk.length < minLen)) →
      mergeStep minLen maxLen (merged, buf) chunk =
        ((if buf.isEmpty then merged ++ [chunk] else merged ++ [buf, chunk]),
          []) := by
  refine ⟨mergeChunks_length_le minLen maxLen chunks, ?_⟩
  intro merged buf chunk h
  by_cases hb : buf.isEmpty
  · simp [mergeStep, h, hb]
  · simp [mergeStep, h, hb]

/-- Witness for `merge_pass_count_and_flush` at the counterexample input:
the failed merge of `"xxxx"` into the buffer `"uuuuuu"` flushes the buffer
and emits the candidate directly. -/
theorem merge_pass_count_and_flush_witness :
    (mergeChunks 5 10
      ["uuuuuu".toList, "xxxx".toList, "yyyy".toList]).length ≤ 3 ∧
    mergeStep 5 10 ([], "uuuuuu".toList) "xxxx".toList =
      (["uuuuuu".toList, "xxxx".toList], []) := by
  constructor
  · exact (merge_pass_count_and_flush 5 10
      ["uuuuuu".toList, "xxxx".toList, "yyyy".toList]).1
  · have h := (merge_pass_count_and_flush 5 10
      ["uuuuuu".toList, "xxxx".toList, "yyyy".toList]).2
      [] "uuuuuu".toList "xxxx".toList (by decide)
    simpa using h

/-! ## Oversized chunks are whole sentences (C2) -/

theorem pyStrip_length_le (s : List Char) : (pyStrip s).length ≤ s.length := by
  unfold pyStrip dropRightWhile
  rw [List.length_reverse]
  refine le_trans ?_ (length_dropWhile_le isPySpace s)
  refine le_trans (length_dropWhile_le _ _) ?_
  rw [List.length_reverse]

theorem joinSp_length_le (a b : List Char) :
    (joinSp a b).length ≤ a.length + b.length + 1 := by
  unfold joinSp
  refine le_trans (pyStrip_length_le _) ?_
  simp [List.length_append]
  omega

theorem packFold_mem (maxLen : Nat) (S : List (List Char)) :
    ∀ (sents : List (List Char)), (∀ s ∈ sents, s ∈ S) →
    ∀ (chunks : List (List Char)) (buf : List Char),
      (∀ c ∈ chunks, c.length ≤ maxLen ∨ c ∈ S) →
      (buf.length ≤ maxLen ∨ buf ∈ S ∨ buf = []) →
      (∀ c ∈ (sents.foldl (packStep maxLen) (chunks, buf)).1,
          c.length ≤ maxLen ∨ c ∈ S) ∧
      ((sents.foldl (packStep maxLen) (chunks, buf)).2.length ≤ maxLen ∨
        (sents.foldl (packStep maxLen) (chunks, buf)).2 ∈ S ∨
        (sents.foldl (packStep maxLen) (chunks, buf)).2 = []) := by
  intro sents
  induction sents with
  | nil => intro _ chunks buf hch hbuf; exact ⟨hch, hbuf⟩
  | cons sent rest ih =>
    intro hS chunks buf hch hbuf
    rw [List.foldl_cons]
    have hSrest : ∀ s ∈ rest, s ∈ S := fun s hs => hS s (List.mem_cons_of_mem _ hs)
    have hsent : sent ∈ S := hS sent (List.mem_cons_self _ _)
    by_cases h1 : sent.isEmpty
    · rw [show packStep maxLen (chunks, buf) sent = (chunks, buf) by
        simp [packStep, h1]]
      exact ih hSrest chunks buf hch hbuf
    · by_cases h2 : buf.length + sent.length + 1 ≤ maxLen
      · rw [show packStep maxLen (chunks, buf) sent =
            (chunks, joinSp buf sent) by simp [packStep, h1, h2]]
        refine ih hSrest chunks (joinSp buf sent) hch (Or.inl ?_)
        exact le_trans (joinSp_length_le buf sent) h2
      · by_cases h3 : buf.isEmpty
        · rw [show packStep maxLen (chunks, buf) sent = (chunks, sent) by
            simp [packStep, h1, h2, h3]]
          exact ih hSrest chunks sent hch (Or.inr (Or.inl hsent))
        · rw [show packStep maxLen (chunks, buf) sent =
              (chunks ++ [buf], sent) by simp [packStep, h1, h2, h3]]
          refine ih hSrest (chunks ++ [buf]) sent ?_ (Or.inr (Or.inl hsent))
          intro c hc
          rcases List.mem_append.mp hc with hc' | hc'
          · exact hch c hc'
          · rw [List.mem_singleton.mp hc']
            rcases hbuf with h | h | h
            · exact Or.inl h
            · exact Or.inr h
            · rw [h] at h3; simp at h3

theorem packSentences_mem (maxLen : Nat) (sents : List (List Char)) :
    ∀ c ∈ packSentences maxLen sents, c.length ≤ maxLen ∨ c ∈ sents := by
  have h := packFold_mem maxLen sents sents (fun s hs => hs) [] []
    (by simp) (Or.inr (Or.inr rfl))
  intro c hc
  simp only [packSentences] at hc
  by_cases hb : (sents.foldl (packStep maxLen) ([], [])).2.isEmpty
  · rw [if_pos hb] at hc
    exact h.1 c hc
  · rw [if_neg hb] at hc
    rcases List.mem_append.mp hc with hc' | hc'
    · exact h.1 c hc'
    · rw [List.mem_singleton.mp hc']
      rcases h.2 with h' | h' | h'
      · exact Or.inl h'
      · exact Or.inr h'
      · rw [h'] at hb; simp at hb

theorem mergeFold_mem (minLen maxLen : Nat) (S : List (List Char)) :
    ∀ (chunks : List (List Char)), (∀ c ∈ chunks, c ∈ S) →
    ∀ (merged : List (List Char)) (buf : List Char),
      (∀ c ∈ merged, c.length ≤ maxLen ∨ c ∈ S) →
      (buf.length ≤ maxLen ∨ buf ∈ S ∨ buf = []) →
      (∀ c ∈ (chunks.foldl (mergeStep minLen maxLen) (merged, buf)).1,
          c.length ≤ maxLen ∨ c ∈ S) ∧
      ((chunks.foldl (mergeStep minLen maxLen) (merged, buf)).2.length ≤ maxLen ∨
        (chunks.foldl (mergeStep minLen maxLen) (merged, buf)).2 ∈ S ∨
        (chunks.foldl (mergeStep minLen maxLen) (merged, buf)).2 = []) := by
  intro chunks
  induction chunks with
  | nil => intro _ merged buf hm hbuf; exact ⟨hm, hbuf⟩
  | cons ck rest ih =>
    intro hS merged buf hm hbuf
    rw [List.foldl_cons]
    have hSrest : ∀ c ∈ rest, c ∈ S := fun c hc => hS c (List.mem_cons_of_mem _ hc)
    have hck : ck ∈ S := hS ck (List.mem_cons_self _ _)
    by_cases h1 : buf.length + ck.length + 1 ≤ maxLen ∧
        (buf.length < minLen ∨ ck.length < minLen)
    · rw [show mergeStep minLen maxLen (merged, buf) ck =
          (merged, joinSp buf ck) by simp [mergeStep, h1]]
      refine ih hSrest merged (joinSp buf ck) hm (Or.inl ?_)
      exact le_trans (joinSp_length_le buf ck) h1.1
    · by_cases h2 : buf.isEmpty
      · rw [show mergeStep minLen maxLen (merged, buf) ck =
            (merged ++ [ck], []) by simp [mergeStep, h1, h2]]
        refine ih hSrest (merged ++ [ck]) [] ?_ (Or.inr (Or.inr rfl))
        intro c hc
        rcases List.mem_append.mp hc with hc' | hc'
        · exact hm c hc'
        · rw [List.mem_singleton.mp hc']
          exact Or.inr hck
      · rw [show mergeStep minLen maxLen (merged, buf) ck =
            (merged ++ [buf, ck], []) by simp [mergeStep, h1, h2]]
        refine ih hSrest (merged ++ [buf, ck]) [] ?_ (Or.inr (Or.inr rfl))
        intro c hc
        rcases List.mem_append.mp hc with hc' | hc'
        · exact hm c hc'
        · simp only [List.mem_cons, List.not_mem_nil, or_false] at hc'
          rcases hc' with rfl | rfl
          · rcases hbuf with h | h | h
            · exact Or.inl h
            · exact Or.inr h
            · rw [h] at h2; simp at h2
          · exact Or.inr hck

theorem mergeChunks_mem (minLen maxLen : Nat) (chunks : List (List Char)) :
    ∀ c ∈ mergeChunks minLen maxLen chunks,
      c.length ≤ maxLen ∨ c ∈ chunks := by
  have h := mergeFold_mem minLen maxLen chunks chunks (fun c hc => hc) [] []
    (by simp) (Or.inr (Or.inr rfl))
  intro c hc
  simp only [mergeChunks] at hc
  by_cases hb : (chunks.foldl (mergeStep minLen maxLen) ([], [])).2.isEmpty
  · rw [if_pos hb] at hc
    exact h.1 c hc
  · rw [if_neg hb] at hc
    rcases List.mem_append.mp hc with hc' | hc'
    · exact h.1 c hc'
    · rw [List.mem_singleton.mp hc']
      rcases h.2 with h' | h' | h'
      · exact Or.inl h'
      · exact Or.inr h'
      · rw [h'] at hb; simp at hb

/-- C2 counterexample: the text is a single paragraph longer than
`max_length = 5` containing the sentence `"bb."` of length 3 ≤ 5, yet the
output contains two chunks longer than `max_length`, not at most one. -/
theorem oversized_chunk_counterexample :
    splitParagraphs "aaaaaaa. bb. ccccccc.".toList =
      ["aaaaaaa. bb. ccccccc.".toList] ∧
    5 < "aaaaaaa. bb. ccccccc.".toList.length ∧
    ("bb.".toList ∈ sentSplit "aaaaaaa. bb. ccccccc.".toList ∧
      "bb.".toList.length ≤ 5) ∧
    split_into_chunks "aaaaaaa. bb. ccccccc.".toList 1 5 =
      ["aaaaaaa.".toList, "bb.".toList, "ccccccc.".toList] ∧
    5 < "aaaaaaa.".toList.length ∧ 5 < "ccccccc.".toList.length := by
  decide

/-- C2 (amended): every chunk emitted by `split_into_chunks` either has
length at most `max_length`, or is an oversized single sentence of an
oversized paragraph, emitted whole and verbatim (never truncated); there may
be more than one such oversized chunk. -/
theorem oversized_chunks_are_whole_sentences (text : List Char)
    (minLen maxLen : Nat) :
    ∀ c ∈ split_into_chunks text minLen maxLen,
      c.length ≤ maxLen ∨
      (maxLen < c.length ∧ ∃ para ∈ splitParagraphs text,
        maxLen < para.length ∧ c ∈ sentSplit para) := by
  intro c hc
  by_cases hlen : c.length ≤ maxLen
  · exact Or.inl hlen
  · right
    refine ⟨Nat.lt_of_not_le hlen, ?_⟩
    rcases mergeChunks_mem minLen maxLen _ c hc with h | h
    · exact absurd h hlen
    simp only [preMergeChunks, List.mem_flatMap] at h
    obtain ⟨para, hpara, hcf⟩ := h
    by_cases hp : para.length ≤ maxLen
    · rw [if_pos hp] at hcf
      rw [List.mem_singleton.mp hcf] at hlen
      exact absurd hp hlen
    · rw [if_neg hp] at hcf
      rcases packSentences_mem maxLen _ c hcf with h | h
      · exact absurd h hlen
      · exact ⟨para, hpara, Nat.lt_of_not_le hp, h⟩

/-- Witness for `oversized_chunks_are_whole_sentences`: the oversized chunk
`"ccccccc."` of the counterexample text is a whole sentence of its oversized
paragraph. -/
theorem oversized_chunks_are_whole_sentences_witness :
    "ccccccc.".toList.length ≤ 5 ∨
    (5 < "ccccccc.".toList.length ∧
      ∃ para ∈ splitParagraphs "aaaaaaa. bb. ccccccc.".toList,
        5 < para.length ∧ "ccccccc.".toList ∈ sentSplit para) :=
  oversized_chunks_are_whole_sentences "aaaaaaa. bb. ccccccc.".toList 1 5
    "ccccccc.".toList (by decide)

/-- C8: concatenating the chunks of `split_into_chunks`, in order,
reproduces exactly the non-whitespace characters of the input text in their
original order: no content is inserted, lost, or reordered by chunking. -/
theorem chunking_preserves_content (text : List Char) (minLen maxLen : Nat) :
    keepNonWS (split_into_chunks text minLen maxLen).flatten =
      keepNonWS text := by
  unfold split_into_chunks
  rw [mergeChunks_keepNonWS, preMergeChunks_flatten]

/-! ## Grading (C4) -/

/-- C4: grading trims and lowercases both strings, rejects empty normalized
input, and otherwise accepts exactly when the SequenceMatcher ratio `2M/T`
is at least 0.6; in particular the four concrete examples of the
specification behave as stated. -/
theorem check_answer_spec :
    (∀ user correct : List Char,
      ((normalizeAnswer user = [] ∨ normalizeAnswer correct = []) →
        check_answer user correct = false) ∧
      (normalizeAnswer user ≠ [] → normalizeAnswer correct ≠ [] →
        (check_answer user correct = true ↔
          (0.6 : ℚ) ≤ similarityScore (normalizeAnswer user)
            (normalizeAnswer correct)))) ∧
    check_answer "Paris".toList "Paris".toList = true ∧
    check_answer "".toList "Paris".toList = false ∧
    check_answer "xyz".toList "abc".toList = false ∧
    check_answer "Pariss".toList "Paris".toList = true := by
  refine ⟨?_, by decide, by decide, by decide, by decide⟩
  intro user correct
  constructor
  · intro h
    rcases h with h | h <;>
      simp [check_answer, List.isEmpty_iff, h]
  · intro hu hc
    have hred : check_answer user correct =
        decide (3 * ((normalizeAnswer user).length +
            (normalizeAnswer correct).length) ≤
          10 * smTotalMatched (normalizeAnswer user)
            (normalizeAnswer correct)) := by
      simp [check_answer, List.isEmpty_iff, hu, hc]
    rw [hred, decide_eq_true_iff]
    unfold similarityScore
    have hT : 0 < (normalizeAnswer user).length +
        (normalizeAnswer correct).length := by
      cases hn : normalizeAnswer user with
      | nil => exact absurd hn hu
      | cons a l => simp [hn]
    have hTQ : (0 : ℚ) < ((normalizeAnswer user).length : ℚ) +
        ((normalizeAnswer correct).length : ℚ) := by
      exact_mod_cast hT
    rw [show (0.6 : ℚ) = 3 / 5 by norm_num, div_le_div_iff₀ (by norm_num) hTQ]
    constructor
    · intro h
      have h' : ((3 * ((normalizeAnswer user).length +
          (normalizeAnswer correct).length) : ℕ) : ℚ) ≤
          ((10 * smTotalMatched (normalizeAnswer user)
            (normalizeAnswer correct) : ℕ) : ℚ) := by
        exact_mod_cast h
      push_cast at h'
      linarith
    · intro h
      have h' : (3 : ℚ) * (((normalizeAnswer user).length : ℚ) +
          ((normalizeAnswer correct).length : ℚ)) ≤
          10 * (smTotalMatched (normalizeAnswer user)
            (normalizeAnswer correct) : ℚ) := by
        linarith
      exact_mod_cast h'

/-- Witness for `check_answer_spec`: at `"Pariss"` versus `"Paris"` both
normalized strings are non-empty, so acceptance is equivalent to the ratio
reaching 0.6. -/
theorem check_answer_spec_witness :
    check_answer "Pariss".toList "Paris".toList = true ↔
      (0.6 : ℚ) ≤ similarityScore (normalizeAnswer "Pariss".toList)
        (normalizeAnswer "Paris".toList) :=
  (check_answer_spec.1 "Pariss".toList "Paris".toList).2
    (by decide) (by decide)

/-! ## Question generation (C3) -/

/-- C3: question generation returns `none` exactly when the chunk has no
non-empty sentences, or the longest sentence keeps no token after stripping
non-alphanumeric characters; otherwise it returns the fixed template around
the longest stripped token of the longest sentence (both longest by
character count, ties to the first occurrence), the longest sentence
(trimmed) as the answer, and the whitespace word count of the whole chunk as
the difficulty signal. -/
theorem genQuestion_spec (chunk : List Char) :
    (sentencesOf chunk = [] → genQuestion chunk = none) ∧
    (∀ s ss, sentencesOf chunk = s :: ss →
      (pyMaxBy List.length s ss ∈ sentencesOf chunk ∧
        (∀ x ∈ sentencesOf chunk,
          x.length ≤ (pyMaxBy List.length s ss).length) ∧
        (∃ l1 l2, sentencesOf chunk = l1 ++ pyMaxBy List.length s ss :: l2 ∧
          ∀ x ∈ l1, x.length < (pyMaxBy List.length s ss).length)) ∧
      (wordsOf (pyMaxBy List.length s ss) = [] →
        genQuestion chunk = none) ∧
      (∀ w ws, wordsOf (pyMaxBy List.length s ss) = w :: ws →
        (pyMaxBy List.length w ws ∈ wordsOf (pyMaxBy List.length s ss) ∧
          (∀ x ∈ wordsOf (pyMaxBy List.length s ss),
            x.length ≤ (pyMaxBy List.length w ws).length) ∧
          (∃ l1 l2, wordsOf (pyMaxBy List.length s ss) =
              l1 ++ pyMaxBy List.length w ws :: l2 ∧
            ∀ x ∈ l1, x.length < (pyMaxBy List.length w ws).length)) ∧
        genQuestion chunk =
          some (questionTemplate (pyMaxBy List.length w ws),
            pyStrip (pyMaxBy List.length s ss),
            (pySplitWs chunk).length))) := by
  constructor
  · intro h
    simp [genQuestion, h]
  · intro s ss hs
    refine ⟨⟨?_, ?_, ?_⟩, ?_, ?_⟩
    · rw [hs]; exact pyMaxBy_mem List.length s ss
    · rw [hs]; exact pyMaxBy_le List.length s ss
    · rw [hs]; exact pyMaxBy_first List.length s ss
    · intro hw
      simp [genQuestion, hs, hw]
    · intro w ws hw
      refine ⟨⟨?_, ?_, ?_⟩, ?_⟩
      · rw [hw]; exact pyMaxBy_mem List.length w ws
      · rw [hw]; exact pyMaxBy_le List.length w ws
      · rw [hw]; exact pyMaxBy_first List.length w ws
      · simp [genQuestion, hs, hw]

/-- Witness for `genQuestion_spec`: a concrete chunk with two sentences is
mapped to a question about `"Hello"`, the longest token of its longest
sentence, with the whole-chunk word count 4. -/
theorem genQuestion_spec_witness :
    genQuestion "Hello there world. Hi.".toList =
      some (questionTemplate (pyMaxBy List.length "Hello".toList
          ["there".toList, "world".toList]),
        pyStrip (pyMaxBy List.length "Hello there world.".toList
          ["Hi.".toList]),
        (pySplitWs "Hello there world. Hi.".toList).length) :=
  (((genQuestion_spec "Hello there world. Hi.".toList).2
    "Hello there world.".toList ["Hi.".toList] (by decide)).2.2
    "Hello".toList ["there".toList, "world".toList] (by decide)).2

/-! ## Summary (C7) -/

theorem printSummary_fields (s : QuizState) :
    (printSummary s).total_answered = s.correct_count + s.incorrect_count ∧
    ((printSummary s).accuracy = none ↔
      (printSummary s).total_answered = 0) ∧
    ((printSummary s).total_answered ≠ 0 →
      (printSummary s).accuracy = some (100 * (s.correct_count : ℚ) /
        ((printSummary s).total_answered : ℚ))) := by
  by_cases h : s.correct_count + s.incorrect_count = 0 <;>
    simp [printSummary, h]

/-- C7: after the quiz loop (whether it ran all iterations or stopped
early), the summary's total answered equals `correct_count +
incorrect_count`, and the accuracy figure `100 * correct / total` exists in
the summary exactly when the total is non-zero — when nothing was answered
the accuracy is omitted, so no division by zero occurs. -/
theorem summary_after_loop (answers : Nat → List Char) (quiet : Bool)
    (num r : Nat) (s0 : QuizState) (out : List OutLine) :
    (printSummary (askGo answers quiet num r s0 out).1).total_answered =
      (askGo answers quiet num r s0 out).1.correct_count +
        (askGo answers quiet num r s0 out).1.incorrect_count ∧
    ((printSummary (askGo answers quiet num r s0 out).1).accuracy = none ↔
      (printSummary (askGo answers quiet num r s0 out).1).total_answered
        = 0) ∧
    ((printSummary (askGo answers quiet num r s0 out).1).total_answered
        ≠ 0 →
      (printSummary (askGo answers quiet num r s0 out).1).accuracy =
        some (100 *
          ((askGo answers quiet num r s0 out).1.correct_count : ℚ) /
          ((printSummary
            (askGo answers quiet num r s0 out).1).total_answered : ℚ))) :=
  printSummary_fields (askGo answers quiet num r s0 out).1

/-- Witness for `summary_after_loop`: one question answered correctly gives
total 1 and a computed accuracy. -/
theorem summary_after_loop_witness :
    (printSummary (askGo (fun _ => "Paris".toList) false 1 1
        (mkSession [] [⟨"Q".toList, "Paris".toList, 1⟩] []) []).1).accuracy =
      some (100 * ((askGo (fun _ => "Paris".toList) false 1 1
          (mkSession [] [⟨"Q".toList, "Paris".toList, 1⟩] [])
          []).1.correct_count : ℚ) /
        ((printSummary (askGo (fun _ => "Paris".toList) false 1 1
          (mkSession [] [⟨"Q".toList, "Paris".toList, 1⟩] [])
          []).1).total_answered : ℚ)) :=
  (summary_after_loop (fun _ => "Paris".toList) false 1 1
    (mkSession [] [⟨"Q".toList, "Paris".toList, 1⟩] []) []).2.2 (by decide)

/-! ## Level reselection (C5) -/

theorem pickLevel_none_iff (s : QuizState) :
    pickLevel s = none ↔ s.b0 = [] ∧ s.b1 = [] ∧ s.b2 = [] := by
  cases hb0 : s.b0 <;> cases hb1 : s.b1 <;> cases hb2 : s.b2 <;>
    simp [pickLevel, bucket, hb0, hb1, hb2]

theorem pickLevel_some_spec (s : QuizState) (l : Nat)
    (h : pickLevel s = some l) :
    bucket s l ≠ [] ∧ l ≤ 2 ∧
    ∀ lv ∈ [0, 1, 2], bucket s lv ≠ [] →
      (bucket s lv).length ≤ (bucket s l).length ∧
      ((bucket s lv).length = (bucket s l).length → l ≤ lv) := by
  unfold pickLevel at h
  cases hF : [0, 1, 2].filter (fun lv => !(bucket s lv).isEmpty) with
  | nil => rw [hF] at h; simp at h
  | cons a t =>
    rw [hF] at h
    simp only [Option.some.injEq] at h
    subst h
    have hmemF : pyMaxBy (fun lv => (bucket s lv).length) a t ∈
        [0, 1, 2].filter (fun lv => !(bucket s lv).isEmpty) := by
      rw [hF]; exact pyMaxBy_mem _ a t
    have hmem := List.mem_filter.mp hmemF
    have hne : bucket s (pyMaxBy (fun lv => (bucket s lv).length) a t) ≠
        [] := by
      intro hcon
      have h2 := hmem.2
      rw [hcon] at h2
      simp at h2
    refine ⟨hne, ?_, ?_⟩
    · have h1 := hmem.1
      simp only [List.mem_cons, List.not_mem_nil, or_false] at h1
      rcases h1 with h1 | h1 | h1 <;> omega
    · intro lv hlv hlvne
      have hlvF : lv ∈ [0, 1, 2].filter (fun lv => !(bucket s lv).isEmpty) := by
        refine List.mem_filter.mpr ⟨hlv, ?_⟩
        simp [List.isEmpty_iff, hlvne]
      rw [hF] at hlvF
      constructor
      · exact pyMaxBy_le (fun lv => (bucket s lv).length) a t lv hlvF
      · intro heq
        obtain ⟨l1, l2, hdec, hlt⟩ := pyMaxBy_first
          (fun lv => (bucket s lv).length) a t
        have hpw0 : ([0, 1, 2] : List Nat).Pairwise (· < ·) := by decide
        have hpw := List.Pairwise.sublist
          (@List.filter_sublist Nat (fun lv => !(bucket s lv).isEmpty)
            [0, 1, 2]) hpw0
        rw [hF, hdec] at hpw
        rw [hdec] at hlvF
        rcases List.mem_append.mp hlvF with hin | hin
        · exact absurd heq (Nat.ne_of_lt (hlt lv hin))
        · rcases List.mem_cons.mp hin with rfl | hin2
          · exact Nat.le_refl _
          · have hp2 := (List.pairwise_append.mp hpw).2.1
            exact Nat.le_of_lt ((List.pairwise_cons.mp hp2).1 lv hin2)

theorem bucket_all_empty (s : QuizState) (h0 : s.b0 = []) (h1 : s.b1 = [])
    (h2 : s.b2 = []) (lv : Nat) : bucket s lv = [] := by
  rcases lv with _ | _ | n <;> simp [bucket, h0, h1, h2]

/-- C5: in a loop iteration whose current bucket is empty, the loop breaks
early exactly when every bucket is empty (leaving the state unchanged);
otherwise the new level is the non-empty bucket holding the most remaining
questions, with ties between equally full buckets resolved to the lowest
level number over levels 0, 1, 2. -/
theorem level_reselection_spec (s : QuizState) :
    (pickLevel s = none ↔ s.b0 = [] ∧ s.b1 = [] ∧ s.b2 = []) ∧
    (∀ (answers : Nat → List Char) (quiet : Bool) (num r : Nat)
        (out : List OutLine),
      s.b0 = [] → s.b1 = [] → s.b2 = [] →
      (askGo answers quiet num (r + 1) s out).1 = s) ∧
    (∀ l, pickLevel s = some l →
      bucket s l ≠ [] ∧ l ≤ 2 ∧
      ∀ lv ∈ [0, 1, 2], bucket s lv ≠ [] →
        (bucket s lv).length ≤ (bucket s l).length ∧
        ((bucket s lv).length = (bucket s l).length → l ≤ lv)) := by
  refine ⟨pickLevel_none_iff s, ?_, fun l hl => pickLevel_some_spec s l hl⟩
  intro answers quiet num r out h0 h1 h2
  have hcur : bucket s s.current_level = [] :=
    bucket_all_empty s h0 h1 h2 s.current_level
  have hnone : pickLevel s = none := (pickLevel_none_iff s).mpr ⟨h0, h1, h2⟩
  simp [askGo, hcur, hnone]

/-- Witness for `level_reselection_spec`: with buckets of sizes 1, 1, 0 the
reselection picks level 0 (the lowest of the two equally full non-empty
buckets), and an all-empty session leaves the state unchanged. -/
theorem level_reselection_spec_witness :
    bucket (mkSession [⟨[], [], 0⟩] [⟨[], [], 1⟩] []) 0 ≠ [] ∧
    (bucket (mkSession [⟨[], [], 0⟩] [⟨[], [], 1⟩] []) 1).length ≤
      (bucket (mkSession [⟨[], [], 0⟩] [⟨[], [], 1⟩] []) 0).length ∧
    (0 : Nat) ≤ 1 ∧
    (askGo (fun _ => []) true 5 5 (mkSession [] [] []) []).1 =
      mkSession [] [] [] := by
  have h := (level_reselection_spec
    (mkSession [⟨[], [], 0⟩] [⟨[], [], 1⟩] [])).2.2 0 (by decide)
  have h1 := h.2.2 1 (by decide) (by decide)
  refine ⟨h.1, h1.1, h1.2 (by decide), ?_⟩
  have h4 := (level_reselection_spec (mkSession [] [] [])).2.1
    (fun _ => []) true 5 4 [] rfl rfl rfl
  exact h4

/-! ## Difficulty level invariant (C6) -/

theorem setBucket_level (s : QuizState) (lv : Nat) (qs : List Question) :
    (setBucket s lv qs).current_level = s.current_level := by
  rcases lv with _ | _ | n <;> simp [setBucket]

theorem updateAfterGrade_le (b : Bool) (s : QuizState)
    (h : s.current_level ≤ 2) :
    (updateAfterGrade b s).current_level ≤ 2 := by
  cases b <;> simp [updateAfterGrade] <;> split <;> omega

theorem pickLevel_some_le (s : QuizState) (l : Nat)
    (h : pickLevel s = some l) : l ≤ 2 :=
  (pickLevel_some_spec s l h).2.1

theorem askGo_level_le (answers : Nat → List Char) (quiet : Bool)
    (num : Nat) :
    ∀ (r : Nat) (s : QuizState) (out : List OutLine),
      s.current_level ≤ 2 →
      (askGo answers quiet num r s out).1.current_level ≤ 2 := by
  intro r
  induction r with
  | zero => intro s out h; exact h
  | succ r ih =>
    intro s out h
    simp only [askGo]
    cases hsel : (if (bucket s s.current_level).isEmpty then pickLevel s
        else some s.current_level) with
    | none => simpa using h
    | some lvl =>
      have hlvl : lvl ≤ 2 := by
        by_cases hb : (bucket s s.current_level).isEmpty
        · rw [if_pos hb] at hsel
          exact pickLevel_some_le s lvl hsel
        · rw [if_neg hb] at hsel
          injection hsel with hsel
          omega
      dsimp only
      cases hpop : popLast (bucket s lvl) with
      | none => simpa using h
      | some qr =>
        obtain ⟨q, rest⟩ := qr
        dsimp only
        refine ih _ _ ?_
        refine updateAfterGrade_le _ _ ?_
        rw [setBucket_level]
        exact hlvl

/-- C6: `current_level` starts at 1 and never leaves `[0, 2]`: a correct
answer increments it only below 2, an incorrect answer decrements it only
above 0, reselection only assigns levels from `{0, 1, 2}`, two consecutive
correct answers from level 1 reach and stay at level 2, and an incorrect
answer at level 0 stays at level 0. -/
theorem current_level_invariant :
    (∀ qs0 qs1 qs2, (mkSession qs0 qs1 qs2).current_level = 1) ∧
    (∀ (answers : Nat → List Char) (quiet : Bool) (num r : Nat)
        (s : QuizState) (out : List OutLine), s.current_level ≤ 2 →
      (askGo answers quiet num r s out).1.current_level ≤ 2) ∧
    (∀ s : QuizState, s.current_level < 2 →
      (updateAfterGrade true s).current_level = s.current_level + 1) ∧
    (∀ s : QuizState, s.current_level = 2 →
      (updateAfterGrade true s).current_level = 2) ∧
    (∀ s : QuizState, 0 < s.current_level →
      (updateAfterGrade false s).current_level = s.current_level - 1) ∧
    (∀ s : QuizState, s.current_level = 0 →
      (updateAfterGrade false s).current_level = 0) ∧
    (∀ s : QuizState, s.current_level = 1 →
      (updateAfterGrade true (updateAfterGrade true s)).current_level = 2 ∧
      (updateAfterGrade true (updateAfterGrade true
        (updateAfterGrade true s))).current_level = 2) ∧
    (∀ (s : QuizState) (l : Nat), pickLevel s = some l → l ≤ 2) := by
  refine ⟨fun _ _ _ => rfl,
    fun answers quiet num r s out h => askGo_level_le answers quiet num r s out h,
    ?_, ?_, ?_, ?_, ?_, fun s l h => pickLevel_some_le s l h⟩
  · intro s h
    simp [updateAfterGrade, h]
  · intro s h
    simp [updateAfterGrade, h]
  · intro s h
    simp [updateAfterGrade, h]
  · intro s h
    simp [updateAfterGrade, h]
  · intro s h
    constructor <;> simp [updateAfterGrade, h]

/-- Witness for `current_level_invariant`: concrete runs of the adaptation
steps from levels 1 and 0. -/
theorem current_level_invariant_witness :
    (askGo (fun _ => []) true 1 1 (mkSession [] [] []) []).1.current_level
      ≤ 2 ∧
    (updateAfterGrade true (updateAfterGrade true
      (mkSession [] [] []))).current_level = 2 ∧
    (updateAfterGrade false
      (updateAfterGrade false (updateAfterGrade false
        (mkSession [] [] [])))).current_level = 0 := by
  refine ⟨current_level_invariant.2.1 (fun _ => []) true 1 1
    (mkSession [] [] []) [] (by decide), ?_, ?_⟩
  · exact (current_level_invariant.2.2.2.2.2.2.1 (mkSession [] [] [])
      rfl).1
  · exact current_level_invariant.2.2.2.2.2.1
      (updateAfterGrade false (updateAfterGrade false (mkSession [] [] [])))
      (by decide)

/-! ## The quiet flag affects output only (C9) -/

/-- C9: for every answer sequence, iteration count and state, running the
loop with `quiet = true` yields exactly the same final state (counters,
current level and remaining buckets) as running it with `quiet = false`, and
emits no output of its own. -/
theorem quiet_flag_output_only (answers : Nat → List Char) (num : Nat) :
    ∀ (r : Nat) (s : QuizState) (out out' : List OutLine),
      (askGo answers true num r s out).1 =
        (askGo answers false num r s out').1 ∧
      (askGo answers true num r s out).2 = out := by
  intro r
  induction r with
  | zero => intro s out out'; exact ⟨rfl, rfl⟩
  | succ r ih =>
    intro s out out'
    simp only [askGo]
    cases hsel : (if (bucket s s.current_level).isEmpty then pickLevel s
        else some s.current_level) with
    | none => simp
    | some lvl =>
      dsimp only
      cases hpop : popLast (bucket s lvl) with
      | none => simp
      | some qr =>
        obtain ⟨q, rest⟩ := qr
        dsimp only
        refine ⟨(ih _ _ _).1, ?_⟩
        rw [(ih _ _ []).2]
        simp

/-! ## Chunks are non-empty and stripped (C10) -/

theorem dropWhile_head_not (p : Char → Bool) (l : List Char) (c : Char)
    (t : List Char) (h : l.dropWhile p = c :: t) : p c = false := by
  induction l with
  | nil => simp at h
  | cons a l ih =>
    by_cases hp : p a
    · rw [List.dropWhile_cons_of_pos hp] at h
      exact ih h
    · rw [List.dropWhile_cons_of_neg hp] at h
      injection h with h1 _
      subst h1
      simpa using hp

theorem dropWhile_getLast? (p : Char → Bool) (l : List Char)
    (h : l.dropWhile p ≠ []) : (l.dropWhile p).getLast? = l.getLast? := by
  induction l with
  | nil => simp at h
  | cons a l ih =>
    by_cases hp : p a
    · rw [List.dropWhile_cons_of_pos hp] at h ⊢
      rw [ih h]
      cases l with
      | nil => rw [List.dropWhile_nil] at h; exact absurd rfl h
      | cons b t => rw [List.getLast?_cons_cons]
    · rw [List.dropWhile_cons_of_neg hp]

theorem pyStrip_head_not_ws (s : List Char) (c : Char) (t : List Char)
    (h : pyStrip s = c :: t) : isPySpace c = false := by
  unfold pyStrip dropRightWhile at h
  have hne : (s.dropWhile isPySpace).reverse.dropWhile isPySpace ≠ [] := by
    intro he
    rw [he] at h
    simp at h
  have h2 : ((s.dropWhile isPySpace).reverse.dropWhile isPySpace).reverse.head?
      = some c := by rw [h]; rfl
  rw [List.head?_reverse, dropWhile_getLast? _ _ hne,
    List.getLast?_reverse] at h2
  cases hd : s.dropWhile isPySpace with
  | nil => rw [hd] at h2; simp at h2
  | cons a l =>
    rw [hd] at h2
    simp only [List.head?_cons, Option.some.injEq] at h2
    subst h2
    exact dropWhile_head_not isPySpace s a l hd

theorem pyStrip_last_not_ws (s : List Char) (c : Char)
    (h : (pyStrip s).getLast? = some c) : isPySpace c = false := by
  unfold pyStrip dropRightWhile at h
  rw [List.getLast?_reverse] at h
  cases hd : (s.dropWhile isPySpace).reverse.dropWhile isPySpace with
  | nil => rw [hd] at h; simp at h
  | cons a l =>
    rw [hd] at h
    simp only [List.head?_cons, Option.some.injEq] at h
    subst h
    exact dropWhile_head_not isPySpace _ a l hd

theorem pyStrip_eq_self (s : List Char)
    (hh : ∀ c t, s = c :: t → isPySpace c = false)
    (hl : ∀ c, s.getLast? = some c → isPySpace c = false) :
    pyStrip s = s := by
  cases s with
  | nil => rfl
  | cons a t =>
    unfold pyStrip dropRightWhile
    rw [List.dropWhile_cons_of_neg (by simp [hh a t rfl])]
    cases hr : (a :: t).reverse with
    | nil => simp at hr
    | cons b rb =>
      have hb : (a :: t).getLast? = some b := by
        rw [← List.head?_reverse, hr]
        rfl
      rw [List.dropWhile_cons_of_neg (by simp [hl b hb]), ← hr,
        List.reverse_reverse]

theorem pyStrip_clean (s : List Char) (h : pyStrip s ≠ []) :
    CleanChunk (pyStrip s) := by
  refine ⟨h, ?_⟩
  refine pyStrip_eq_self (pyStrip s) ?_ ?_
  · intro c t hct
    exact pyStrip_head_not_ws s c t hct
  · intro c hc
    exact pyStrip_last_not_ws s c hc

theorem keepNonWS_ne_nil (c : Char) (t : List Char)
    (h : isPySpace c = false) : keepNonWS (c :: t) ≠ [] := by
  simp [keepNonWS, List.filter_cons, h]

theorem clean_keep_ne_nil (b : List Char) (hb : CleanChunk b) :
    keepNonWS b ≠ [] := by
  obtain ⟨hne, hstrip⟩ := hb
  cases hc : b with
  | nil => exact absurd hc hne
  | cons c t =>
    refine keepNonWS_ne_nil c t ?_
    refine pyStrip_head_not_ws b c t ?_
    rw [hstrip, hc]

theorem joinSp_clean (a b : List Char) (hb : CleanChunk b) :
    CleanChunk (joinSp a b) := by
  refine pyStrip_clean (a ++ ' ' :: b) ?_
  intro hcon
  have h1 : keepNonWS (joinSp a b) = keepNonWS a ++ keepNonWS b :=
    keepNonWS_joinSp a b
  rw [show joinSp a b = pyStrip (a ++ ' ' :: b) from rfl, hcon] at h1
  have h2 := clean_keep_ne_nil b hb
  rw [keepNonWS_nil] at h1
  exact h2 (List.append_eq_nil.mp h1.symm).2

theorem punct_not_ws (c : Char) (h : isPunct c = true) :
    isPySpace c = false := by
  have h' : (c = '.' ∨ c = '!') ∨ c = '?' := by
    simpa [isPunct] using h
  rcases h' with (rfl | rfl) | rfl <;> decide

theorem sentSplitGo_clean (s : List Char) :
    ∀ (acc : List Char) (inRun : Bool),
      (∀ c, s.getLast? = some c → isPySpace c = false) →
      (inRun = true → s ≠ [] ∧ acc = []) →
      (inRun = false → acc = [] → s ≠ [] ∧
        ∀ c t, s = c :: t → isPySpace c = false) →
      (inRun = false → ∀ c, acc.getLast? = some c → isPySpace c = false) →
      (inRun = false → s = [] → acc ≠ [] ∧
        ∀ c t, acc = c :: t → isPySpace c = false) →
      ∀ piece ∈ sentSplitGo s acc inRun, CleanChunk piece := by
  induction s with
  | nil =>
    intro acc inRun h1 h2 h3 h4 h5 piece hp
    cases inRun with
    | true => exact absurd rfl (h2 rfl).1
    | false =>
      obtain ⟨hacc, hhead⟩ := h5 rfl rfl
      simp only [sentSplitGo, List.mem_singleton] at hp
      subst hp
      refine ⟨by simpa using hacc, ?_⟩
      refine pyStrip_eq_self _ ?_ ?_
      · intro c t hct
        have hg : acc.getLast? = some c := by
          rw [← List.head?_reverse, hct]
          rfl
        exact h4 rfl c hg
      · intro c hc
        rw [List.getLast?_reverse] at hc
        cases ha : acc with
        | nil => exact absurd ha hacc
        | cons a t =>
          rw [ha] at hc
          simp only [List.head?_cons, Option.some.injEq] at hc
          subst hc
          exact hhead a t ha
  | cons c rest ih =>
    intro acc inRun h1 h2 h3 h4 h5 piece hp
    have hlast_rest : ∀ d, rest.getLast? = some d → isPySpace d = false := by
      intro d hd
      cases hr : rest with
      | nil => rw [hr] at hd; simp at hd
      | cons b t =>
        refine h1 d ?_
        rw [hr] at hd
        rw [hr, List.getLast?_cons_cons]
        exact hd
    cases inRun with
    | true =>
      obtain ⟨_, hacc⟩ := h2 rfl
      subst hacc
      by_cases hc : isPySpace c = true
      · rw [show sentSplitGo (c :: rest) [] true = sentSplitGo rest [] true
          by simp [sentSplitGo, hc]] at hp
        have hrest : rest ≠ [] := by
          intro hr
          subst hr
          have hlast := h1 c (by simp)
          rw [hlast] at hc
          exact absurd hc Bool.false_ne_true
        exact ih [] true hlast_rest (fun _ => ⟨hrest, rfl⟩)
          (fun hf => nomatch hf) (fun hf => nomatch hf)
          (fun hf => nomatch hf) piece hp
      · rw [show sentSplitGo (c :: rest) [] true = sentSplitGo rest [c] false
          by simp [sentSplitGo, hc]] at hp
        have hcf : isPySpace c = false := by simpa using hc
        refine ih [c] false hlast_rest (fun hf => nomatch hf)
          (fun _ hnil => nomatch hnil) ?_ ?_ piece hp
        · intro _ d hd
          have hdc : c = d := by simpa using hd
          exact hdc ▸ hcf
        · intro _ _
          refine ⟨by simp, ?_⟩
          intro d t hdt
          injection hdt with hdc _
          exact hdc ▸ hcf
    | false =>
      by_cases hcut : (isPySpace c && headPunct acc) = true
      · rw [show sentSplitGo (c :: rest) acc false =
            acc.reverse :: sentSplitGo rest [] true
          by simp [sentSplitGo, hcut]] at hp
        have hcw : isPySpace c = true := ((Bool.and_eq_true _ _).mp hcut).1
        have hpunct : headPunct acc = true := ((Bool.and_eq_true _ _).mp hcut).2
        cases hacc : acc with
        | nil =>
          rw [hacc] at hpunct
          simp [headPunct] at hpunct
        | cons p pt =>
          rcases List.mem_cons.mp hp with rfl | hp'
          · refine ⟨by simp [hacc], ?_⟩
            refine pyStrip_eq_self _ ?_ ?_
            · intro d t hdt
              have hg : acc.getLast? = some d := by
                rw [← List.head?_reverse, hdt]
                rfl
              exact h4 rfl d hg
            · intro d hd
              rw [List.getLast?_reverse, hacc] at hd
              simp only [List.head?_cons, Option.some.injEq] at hd
              subst hd
              rw [hacc] at hpunct
              simp only [headPunct] at hpunct
              exact punct_not_ws p hpunct
          · have hrest : rest ≠ [] := by
              intro hr
              subst hr
              have hlast := h1 c (by simp)
              rw [hlast] at hcw
              exact absurd hcw Bool.false_ne_true
            exact ih [] true hlast_rest (fun _ => ⟨hrest, rfl⟩)
              (fun hf => nomatch hf) (fun hf => nomatch hf)
              (fun hf => nomatch hf) piece hp'
      · rw [show sentSplitGo (c :: rest) acc false =
            sentSplitGo rest (c :: acc) false
          by simp [sentSplitGo, hcut]] at hp
        refine ih (c :: acc) false hlast_rest (fun hf => nomatch hf)
          (fun _ hnil => nomatch hnil) ?_ ?_ piece hp
        · intro _ d hd
          cases ha : acc with
          | nil =>
            rw [ha] at hd
            have hdc : c = d := by simpa using hd
            exact hdc ▸ (h3 rfl ha).2 c rest rfl
          | cons a t =>
            rw [ha, List.getLast?_cons_cons] at hd
            refine h4 rfl d ?_
            rw [ha]
            exact hd
        · intro _ hr
          refine ⟨by simp, ?_⟩
          intro d t hdt
          injection hdt with hdc _
          refine hdc ▸ ?_
          refine h1 c ?_
          rw [hr]
          simp

theorem sentSplit_clean (p : List Char) (hp : CleanChunk p) :
    ∀ x ∈ sentSplit p, CleanChunk x := by
  obtain ⟨hne, hstrip⟩ := hp
  intro x hx
  refine sentSplitGo_clean p [] false ?_ (fun hf => nomatch hf) ?_ ?_ ?_ x hx
  · intro c hc
    refine pyStrip_last_not_ws p c ?_
    rw [hstrip]
    exact hc
  · intro _ _
    refine ⟨hne, ?_⟩
    intro c t hct
    refine pyStrip_head_not_ws p c t ?_
    rw [hstrip]
    exact hct
  · intro _ c hc
    exact (nomatch hc)
  · intro _ hp0
    exact absurd hp0 hne

theorem packFold_clean (maxLen : Nat) :
    ∀ (sents : List (List Char)), (∀ x ∈ sents, CleanChunk x) →
    ∀ (chunks : List (List Char)) (buf : List Char),
      (∀ c ∈ chunks, CleanChunk c) → (buf = [] ∨ CleanChunk buf) →
      (∀ c ∈ (sents.foldl (packStep maxLen) (chunks, buf)).1,
        CleanChunk c) ∧
      ((sents.foldl (packStep maxLen) (chunks, buf)).2 = [] ∨
        CleanChunk (sents.foldl (packStep maxLen) (chunks, buf)).2) := by
  intro sents
  induction sents with
  | nil => intro _ chunks buf hch hbuf; exact ⟨hch, hbuf⟩
  | cons sent rest ih =>
    intro hS chunks buf hch hbuf
    rw [List.foldl_cons]
    have hSr : ∀ x ∈ rest, CleanChunk x :=
      fun x hx => hS x (List.mem_cons_of_mem _ hx)
    have hsent : CleanChunk sent := hS sent (List.mem_cons_self _ _)
    have hsent_ne : sent.isEmpty = false := by
      rw [Bool.eq_false_iff]
      simpa [List.isEmpty_iff] using hsent.1
    by_cases h2 : buf.length + sent.length + 1 ≤ maxLen
    · rw [show packStep maxLen (chunks, buf) sent = (chunks, joinSp buf sent)
        by simp [packStep, hsent_ne, h2]]
      exact ih hSr chunks (joinSp buf sent) hch
        (Or.inr (joinSp_clean buf sent hsent))
    · by_cases h3 : buf.isEmpty
      · rw [show packStep maxLen (chunks, buf) sent = (chunks, sent)
          by simp [packStep, hsent_ne, h2, h3]]
        exact ih hSr chunks sent hch (Or.inr hsent)
      · rw [show packStep maxLen (chunks, buf) sent = (chunks ++ [buf], sent)
          by simp [packStep, hsent_ne, h2, h3]]
        refine ih hSr (chunks ++ [buf]) sent ?_ (Or.inr hsent)
        intro c hc
        rcases List.mem_append.mp hc with hc' | hc'
        · exact hch c hc'
        · rw [List.mem_singleton.mp hc']
          rcases hbuf with h | h
          · rw [h] at h3; simp at h3
          · exact h

theorem packSentences_clean (maxLen : Nat) (sents : List (List Char))
    (hS : ∀ x ∈ sents, CleanChunk x) :
    ∀ c ∈ packSentences maxLen sents, CleanChunk c := by
  have h := packFold_clean maxLen sents hS [] [] (by simp) (Or.inl rfl)
  intro c hc
  simp only [packSentences] at hc
  by_cases hb : (sents.foldl (packStep maxLen) ([], [])).2.isEmpty
  · rw [if_pos hb] at hc
    exact h.1 c hc
  · rw [if_neg hb] at hc
    rcases List.mem_append.mp hc with hc' | hc'
    · exact h.1 c hc'
    · rw [List.mem_singleton.mp hc']
      rcases h.2 with h' | h'
      · rw [h'] at hb; simp at hb
      · exact h'

theorem mergeFold_clean (minLen maxLen : Nat) :
    ∀ (chunks : List (List Char)), (∀ x ∈ chunks, CleanChunk x) →
    ∀ (merged : List (List Char)) (buf : List Char),
      (∀ c ∈ merged, CleanChunk c) → (buf = [] ∨ CleanChunk buf) →
      (∀ c ∈ (chunks.foldl (mergeStep minLen maxLen) (merged, buf)).1,
        CleanChunk c) ∧
      ((chunks.foldl (mergeStep minLen maxLen) (merged, buf)).2 = [] ∨
        CleanChunk
          (chunks.foldl (mergeStep minLen maxLen) (merged, buf)).2) := by
  intro chunks
  induction chunks with
  | nil => intro _ merged buf hm hbuf; exact ⟨hm, hbuf⟩
  | cons ck rest ih =>
    intro hS merged buf hm hbuf
    rw [List.foldl_cons]
    have hSr : ∀ x ∈ rest, CleanChunk x :=
      fun x hx => hS x (List.mem_cons_of_mem _ hx)
    have hck : CleanChunk ck := hS ck (List.mem_cons_self _ _)
    by_cases h1 : buf.length + ck.length + 1 ≤ maxLen ∧
        (buf.length < minLen ∨ ck.length < minLen)
    · rw [show mergeStep minLen maxLen (merged, buf) ck =
          (merged, joinSp buf ck) by simp [mergeStep, h1]]
      exact ih hSr merged (joinSp buf ck) hm
        (Or.inr (joinSp_clean buf ck hck))
    · by_cases h2 : buf.isEmpty
      · rw [show mergeStep minLen maxLen (merged, buf) ck =
            (merged ++ [ck], []) by simp [mergeStep, h1, h2]]
        refine ih hSr (merged ++ [ck]) [] ?_ (Or.inl rfl)
        intro c hc
        rcases List.mem_append.mp hc with hc' | hc'
        · exact hm c hc'
        · rw [List.mem_singleton.mp hc']
          exact hck
      · rw [show mergeStep minLen maxLen (merged, buf) ck =
            (merged ++ [buf, ck], []) by simp [mergeStep, h1, h2]]
        refine ih hSr (merged ++ [buf, ck]) [] ?_ (Or.inl rfl)
        intro c hc
        rcases List.mem_append.mp hc with hc' | hc'
        · exact hm c hc'
        · simp only [List.mem_cons, List.not_mem_nil, or_false] at hc'
          rcases hc' with rfl | rfl
          · rcases hbuf with h | h
            · rw [h] at h2; simp at h2
            · exact h
          · exact hck

theorem mergeChunks_clean (minLen maxLen : Nat) (chunks : List (List Char))
    (hS : ∀ x ∈ chunks, CleanChunk x) :
    ∀ c ∈ mergeChunks minLen maxLen chunks, CleanChunk c := by
  have h := mergeFold_clean minLen maxLen chunks hS [] [] (by simp)
    (Or.inl rfl)
  intro c hc
  simp only [mergeChunks] at hc
  by_cases hb : (chunks.foldl (mergeStep minLen maxLen) ([], [])).2.isEmpty
  · rw [if_pos hb] at hc
    exact h.1 c hc
  · rw [if_neg hb] at hc
    rcases List.mem_append.mp hc with hc' | hc'
    · exact h.1 c hc'
    · rw [List.mem_singleton.mp hc']
      rcases h.2 with h' | h'
      · rw [h'] at hb; simp at hb
      · exact h'

theorem splitParagraphs_clean (text : List Char) :
    ∀ p ∈ splitParagraphs text, CleanChunk p := by
  intro p hp
  simp only [splitParagraphs, List.mem_filter, List.mem_map] at hp
  obtain ⟨⟨q, _, rfl⟩, hne⟩ := hp
  refine pyStrip_clean q ?_
  simpa [List.isEmpty_iff] using hne

theorem preMergeChunks_clean (text : List Char) (maxLen : Nat) :
    ∀ c ∈ preMergeChunks text maxLen, CleanChunk c := by
  intro c hc
  simp only [preMergeChunks, List.mem_flatMap] at hc
  obtain ⟨para, hpara, hcf⟩ := hc
  have hclean := splitParagraphs_clean text para hpara
  by_cases hp : para.length ≤ maxLen
  · rw [if_pos hp] at hcf
    rw [List.mem_singleton.mp hcf]
    exact hclean
  · rw [if_neg hp] at hcf
    exact packSentences_clean maxLen _ (sentSplit_clean para hclean) c hcf

/-- C10: every string returned by `split_into_chunks` is non-empty and
equals its own whitespace-trimmed form, for every input text and every
choice of the bounds. -/
theorem chunks_nonempty_and_stripped (text : List Char)
    (minLen maxLen : Nat) :
    ∀ c ∈ split_into_chunks text minLen maxLen,
      c ≠ [] ∧ pyStrip c = c := by
  intro c hc
  exact mergeChunks_clean minLen maxLen _ (preMergeChunks_clean text maxLen)
    c hc

/-- Witness for `chunks_nonempty_and_stripped` at a concrete input. -/
theorem chunks_nonempty_and_stripped_witness :
    "uuuuuu".toList ≠ [] ∧ pyStrip "uuuuuu".toList = "uuuuuu".toList :=
  chunks_nonempty_and_stripped "uuuuuu\n\nxxxx\n\nyyyy".toList 5 10
    "uuuuuu".toList (by decide)

end Tutor
